import Mathlib

set_option maxRecDepth 10000

/-!
# Verification of the `hostport` library

A shallow embedding of the `hostport` Rust crate (host/port parsing and
validation) and proofs about it.  The embedding follows the two source
files:

* `src/validate.rs` — the host validator `is_valid_host` and its helpers
  `is_valid_label`, `is_valid_host_char`, `is_valid_label_char`;
* `src/lib.rs` — the `HostPort` value type with its constructor `new`,
  parser `TryFrom<&str>`, `Display` rendering, `Default`,
  `From<&SocketAddrV4>`, and `PartialEq<&str>`.

Strings are modelled as their lists of characters (`String.data`); Rust's
byte-oriented `str::len` is modelled by summing per-character UTF-8 sizes.
-/

namespace Hostport

/-- Rust `str::len`: the UTF-8 byte length of a string, as the sum of the
UTF-8 sizes of its characters. -/
def utf8Len (l : List Char) : Nat := l.foldr (fun c n => c.utf8Size + n) 0

/-- `is_valid_label_char` from `src/validate.rs`: ASCII alphanumeric or `-`. -/
def is_valid_label_char (c : Char) : Bool :=
  c.isAlphanum || c == '-'

/-- `is_valid_host_char` from `src/validate.rs`: a valid label character or `.`. -/
def is_valid_host_char (c : Char) : Bool :=
  is_valid_label_char c || c == '.'

/-- Helper for `splitChar`: returns the first `c`-free segment of the list and
the list of remaining segments.  Mirrors the semantics of Rust's
`str::split(c)` iterator. -/
def splitCharAux (c : Char) : List Char → List Char × List (List Char)
  | [] => ([], [])
  | x :: xs =>
    let r := splitCharAux c xs
    if x = c then ([], r.1 :: r.2) else (x :: r.1, r.2)

/-- Rust `value.split(c).collect::<Vec<_>>()`: the segments of `l` obtained by
splitting at every occurrence of `c`.  Always returns at least one segment
(`splitChar c [] = [[]]`), like Rust's `split`. -/
def splitChar (c : Char) (l : List Char) : List (List Char) :=
  (splitCharAux c l).1 :: (splitCharAux c l).2

/-- The numeric value of a list of ASCII decimal digit characters
(most significant first). -/
def valDigits (l : List Char) : Nat :=
  l.foldl (fun a c => 10 * a + (c.toNat - 48)) 0

/-- Modelled from the spec: one octet accepted by the "standard IPv4-literal
parser" that the validator delegates to (Rust's `str::parse::<Ipv4Addr>`,
which lives in the standard library, not in this repository's sources): a
group of one to three ASCII digits, no leading zero unless the group is
exactly `"0"`, with value at most 255. -/
def ipv4OctetOk (l : List Char) : Bool :=
  !l.isEmpty && l.length ≤ 3 && l.all (fun c => c.isDigit) &&
    (l.head? != some '0' || l == ['0']) && valDigits l ≤ 255

/-- Modelled from the spec: the "standard IPv4-literal parser" succeeds
exactly on strings made of four dot-separated valid octets
(`value.parse::<Ipv4Addr>().is_ok()`). -/
def is_valid_ipv4 (l : List Char) : Bool :=
  (splitChar '.' l).length == 4 && (splitChar '.' l).all ipv4OctetOk

/-- `is_valid_label` from `src/validate.rs`: a dot-separated part is valid iff
it is non-empty, at most 63 bytes, does not start or end with `-`, every
character is a valid label character, and it is not composed entirely of
ASCII digits. -/
def is_valid_label (label : List Char) : Bool :=
  if label.isEmpty || utf8Len label > 63 then false
  else if label.head? == some '-' || label.getLast? == some '-' then false
  else if label.any (fun c => !(is_valid_label_char c)) then false
  else if label.all (fun c => c.isDigit) then false
  else true

/-- `is_valid_host` from `src/validate.rs`: rejects the empty string, strings
longer than 255 bytes, strings whose first or last character is not ASCII
alphanumeric, and strings containing an invalid host character; then splits
on `.` and either delegates to the IPv4 parser (exactly 3 parts, all
characters digits or dots) or requires every part to be a valid label. -/
def is_valid_host (value : String) : Bool :=
  if h : value.data = [] then false
  else if utf8Len value.data > 255 then false
  else if !(value.data.head h).isAlphanum then false
  else if !(value.data.getLast h).isAlphanum then false
  else if value.data.any (fun c => !(is_valid_host_char c)) then false
  else if (splitChar '.' value.data).length == 3
      && value.data.all (fun c => c.isDigit || c == '.') then
    is_valid_ipv4 value.data
  else (splitChar '.' value.data).all is_valid_label

example : is_valid_host "quake.se" = true := by decide
example : is_valid_host "quake-world.se" = true := by decide
example : is_valid_host "localhost" = true := by decide
example : is_valid_host "foo." = false := by decide
example : is_valid_host "a.0" = false := by decide
example : is_valid_host "1000.0.0.0" = false := by decide
example : is_valid_host "10.10.10.10" = false := by decide
example : is_valid_host "0" = false := by decide
example : is_valid_host "10" = false := by decide
example : is_valid_host "quake1.se" = true := by decide
example : is_valid_host "1quake.se" = true := by decide
example : is_valid_host "---" = false := by decide
example : is_valid_host ".aaa" = false := by decide
example : is_valid_host "f%%" = false := by decide

/-- Helper for `splitOnce`: Rust `str::split_once(c)` on a character list —
`some (before, after)` at the first occurrence of `c`, `none` if `c` does not
occur. -/
def splitOnceList (c : Char) : List Char → Option (List Char × List Char)
  | [] => none
  | x :: xs =>
    if x = c then some ([], xs)
    else (splitOnceList c xs).map (fun p => (x :: p.1, p.2))

/-- Rust `str::split_once(c)`: splits a string at the first occurrence of `c`. -/
def splitOnce (s : String) (c : Char) : Option (String × String) :=
  (splitOnceList c s.data).map (fun p => (⟨p.1⟩, ⟨p.2⟩))

/-- Rust `str::rsplit_once(c)`: splits a string at the last occurrence of `c`
(the first occurrence in the reversed character list). -/
def rsplitOnce (s : String) (c : Char) : Option (String × String) :=
  (splitOnceList c s.data.reverse).map (fun p => (⟨p.2.reverse⟩, ⟨p.1.reverse⟩))

/-- Helper for `parseU16`: Rust's integer parsing after the optional sign has
been stripped — a non-empty run of ASCII decimal digits whose value fits in a
`u16` (accumulation with checked arithmetic fails exactly when the value
exceeds 65535). -/
def parseU16Digits (l : List Char) : Option Nat :=
  if l.isEmpty then none
  else if l.all (fun c => c.isDigit) then
    if valDigits l ≤ 65535 then some (valDigits l) else none
  else none

/-- Rust `str::parse::<u16>()`: rejects the empty string; accepts an optional
leading `+` (a leading `-` is an invalid digit for an unsigned type) followed
by one or more ASCII decimal digits, with overflow beyond 65535 rejected. -/
def parseU16 (s : String) : Option Nat :=
  match s.data with
  | [] => none
  | c :: rest => if c = '+' then parseU16Digits rest else parseU16Digits (c :: rest)

example : parseU16 "28501" = some 28501 := by decide
example : parseU16 "+80" = some 80 := by decide
example : parseU16 "0080" = some 80 := by decide
example : parseU16 "" = none := by decide
example : parseU16 "+" = none := by decide
example : parseU16 "-1" = none := by decide
example : parseU16 " 80" = none := by decide
example : parseU16 "80 " = none := by decide
example : parseU16 "65535" = some 65535 := by decide
example : parseU16 "65536" = none := by decide

/-- The `HostPort` struct from `src/lib.rs`: a host string and a `u16` port
(modelled as a natural number; the `u16` range is carried as a side condition
where it matters). -/
structure HostPort where
  host : String
  port : Nat
deriving DecidableEq

/-- The `HostPortParseError` enum from `src/lib.rs`. -/
inductive HostPortParseError where
  | InvalidFormat
  | InvalidHost (s : String)
  | InvalidPort (s : String)
deriving DecidableEq

/-- `HostPort::new` from `src/lib.rs`: validates the host and otherwise stores
the pair unchanged. -/
def HostPort.new (host : String) (port : Nat) : Except HostPortParseError HostPort :=
  if is_valid_host host then Except.ok ⟨host, port⟩
  else Except.error (HostPortParseError.InvalidHost host)

/-- `TryFrom<&str> for HostPort` from `src/lib.rs`: split at the first `:`
(`InvalidFormat` if there is none), parse the port as a `u16`
(`InvalidPort` with the candidate text on failure), then delegate to
`HostPort::new`. -/
def HostPort.tryFrom (value : String) : Except HostPortParseError HostPort :=
  match splitOnce value ':' with
  | none => Except.error HostPortParseError.InvalidFormat
  | some (host, portStr) =>
    match parseU16 portStr with
    | none => Except.error (HostPortParseError.InvalidPort portStr)
    | some port => HostPort.new host port

/-- `Display for HostPort` from `src/lib.rs`: renders as `"{host}:{port}"`. -/
def HostPort.render (hp : HostPort) : String :=
  hp.host ++ ":" ++ Nat.repr hp.port

/-- The derived `Default` instance of `HostPort`: empty host, port `0`. -/
def hostPortDefault : HostPort := ⟨"", 0⟩

/-- `From<&SocketAddrV4> for HostPort` from `src/lib.rs`: the host is the
`Display` rendering of the IPv4 address (four dot-separated decimal octets)
and the port is taken as-is; no host validation happens. -/
def HostPort.fromSocketAddrV4 (a b c d : Nat) (port : Nat) : HostPort :=
  ⟨Nat.repr a ++ "." ++ Nat.repr b ++ "." ++ Nat.repr c ++ "." ++ Nat.repr d, port⟩

/-- `PartialEq<&str> for HostPort` from `src/lib.rs`: split the raw string at
the last `:`; if the suffix parses as a `u16`, compare host and port for
equality; in every other case the comparison is `false`. -/
def HostPort.eqStr (hp : HostPort) (other : String) : Bool :=
  match rsplitOnce other ':' with
  | some (host, portStr) =>
    match parseU16 portStr with
    | some port => hp.host == host && hp.port == port
    | none => false
  | none => false

example : HostPort.tryFrom "quake.se:28501" = Except.ok ⟨"quake.se", 28501⟩ := rfl
example : HostPort.tryFrom "quake.se" = Except.error HostPortParseError.InvalidFormat := rfl
example : HostPort.tryFrom "quake.se:" = Except.error (HostPortParseError.InvalidPort "") := rfl
example : HostPort.tryFrom "localhost:+80" = Except.ok ⟨"localhost", 80⟩ := rfl
example : HostPort.tryFrom "_:50" = Except.error (HostPortParseError.InvalidHost "_") := rfl
example : HostPort.new "_" 50 = Except.error (HostPortParseError.InvalidHost "_") := rfl
example : HostPort.render ⟨"quake.se", 28501⟩ = "quake.se:28501" := by decide
example : HostPort.eqStr ⟨"quake.se", 28501⟩ "quake.se:28501" = true := by decide
example : HostPort.eqStr ⟨"quake.se", 28501⟩ "quake.se:28502" = false := by decide
example : HostPort.eqStr ⟨"quake.se", 28501⟩ "quake.se:+028501" = true := by decide
example : HostPort.eqStr ⟨"quake.se", 28501⟩ "quake.se" = false := by decide

/-! ### ASCII and UTF-8 size lemmas -/

lemma utf8Size_eq_one_of_le {c : Char} (h : c.val ≤ 127) : c.utf8Size = 1 := by
  show (if c.val ≤ (127 : UInt32) then (1 : Nat)
        else if c.val ≤ 2047 then 2 else if c.val ≤ 65535 then 3 else 4) = 1
  rw [if_pos h]

lemma val_le_of_isDigit {c : Char} (h : c.isDigit = true) : c.val ≤ 127 := by
  simp only [Char.isDigit, Bool.and_eq_true, decide_eq_true_eq] at h
  obtain ⟨-, h2⟩ := h
  rw [UInt32.le_def, BitVec.le_def] at h2 ⊢
  have e1 : (UInt32.toBitVec 57).toNat = 57 := by decide
  have e2 : (UInt32.toBitVec 127).toNat = 127 := by decide
  omega

lemma val_le_of_isAlphanum {c : Char} (h : c.isAlphanum = true) : c.val ≤ 127 := by
  simp only [Char.isAlphanum, Char.isAlpha, Char.isUpper, Char.isLower,
    Bool.or_eq_true, Bool.and_eq_true, decide_eq_true_eq] at h
  have e90 : (UInt32.toBitVec 90).toNat = 90 := by decide
  have e122 : (UInt32.toBitVec 122).toNat = 122 := by decide
  have e57 : (UInt32.toBitVec 57).toNat = 57 := by decide
  have e127 : (UInt32.toBitVec 127).toNat = 127 := by decide
  rw [UInt32.le_def, BitVec.le_def]
  rcases h with (⟨-, h2⟩ | ⟨-, h2⟩) | h
  · rw [UInt32.le_def, BitVec.le_def] at h2; omega
  · rw [UInt32.le_def, BitVec.le_def] at h2; omega
  · have := val_le_of_isDigit h
    rw [UInt32.le_def, BitVec.le_def] at this; omega

lemma utf8Size_eq_one_of_host_char {c : Char} (h : is_valid_host_char c = true) :
    c.utf8Size = 1 := by
  simp only [is_valid_host_char, is_valid_label_char, Bool.or_eq_true, beq_iff_eq] at h
  rcases h with (h | rfl) | rfl
  · exact utf8Size_eq_one_of_le (val_le_of_isAlphanum h)
  · decide
  · decide

lemma length_le_utf8Len (l : List Char) : l.length ≤ utf8Len l := by
  induction l with
  | nil => simp [utf8Len]
  | cons c cs ih =>
    have := Char.utf8Size_pos c
    simp only [utf8Len, List.foldr_cons, List.length_cons] at *
    omega

lemma utf8Len_eq_length (l : List Char) (h : ∀ c ∈ l, c.utf8Size = 1) :
    utf8Len l = l.length := by
  induction l with
  | nil => rfl
  | cons c cs ih =>
    have hc := h c (List.mem_cons_self c cs)
    simp only [utf8Len, List.foldr_cons, List.length_cons] at *
    rw [hc, ih (fun x hx => h x (List.mem_cons_of_mem c hx))]
    omega

/-! ### `splitOnceList` lemmas -/

lemma splitOnceList_eq_none {c : Char} {l : List Char} (h : c ∉ l) :
    splitOnceList c l = none := by
  induction l with
  | nil => rfl
  | cons x xs ih =>
    simp only [List.mem_cons, not_or] at h
    have hxc : ¬(x = c) := fun he => h.1 he.symm
    simp only [splitOnceList, if_neg hxc, ih h.2, Option.map_none']

lemma splitOnceList_append {c : Char} {u : List Char} (hn : c ∉ u) (t : List Char) :
    splitOnceList c (u ++ c :: t) = some (u, t) := by
  induction u with
  | nil => simp [splitOnceList]
  | cons x xs ih =>
    simp only [List.mem_cons, not_or] at hn
    have hxc : ¬(x = c) := fun he => hn.1 he.symm
    simp only [List.cons_append, splitOnceList, if_neg hxc, List.append_eq, ih hn.2,
      Option.map_some']

lemma splitOnceList_eq_some {c : Char} {l a b : List Char}
    (he : splitOnceList c l = some (a, b)) : l = a ++ c :: b ∧ c ∉ a := by
  induction l generalizing a b with
  | nil => simp [splitOnceList] at he
  | cons x xs ih =>
    by_cases hx : x = c
    · subst hx
      simp only [splitOnceList, if_pos rfl, Option.some.injEq, Prod.mk.injEq] at he
      obtain ⟨rfl, rfl⟩ := he
      simp
    · simp only [splitOnceList, if_neg hx] at he
      match hs : splitOnceList c xs with
      | none => rw [hs] at he; simp at he
      | some (a', b') =>
        rw [hs] at he
        simp only [Option.map_some', Option.some.injEq, Prod.mk.injEq] at he
        obtain ⟨rfl, rfl⟩ := he
        obtain ⟨h1, h2⟩ := ih hs
        subst h1
        refine ⟨rfl, fun hmem => ?_⟩
        rcases List.mem_cons.mp hmem with hcx | hca
        · exact hx hcx.symm
        · exact h2 hca

/-! ### Decimal digit lemmas: `Nat.toDigits` round-trips through `valDigits` -/

lemma digitChar_isDigit {d : Nat} (h : d < 10) : (Nat.digitChar d).isDigit = true := by
  interval_cases d <;> decide

lemma digitChar_toNat {d : Nat} (h : d < 10) : (Nat.digitChar d).toNat - 48 = d := by
  interval_cases d <;> decide

lemma toDigitsCore_append (fuel : Nat) : ∀ (n : Nat) (ds : List Char),
    Nat.toDigitsCore 10 fuel n ds = Nat.toDigitsCore 10 fuel n [] ++ ds := by
  induction fuel with
  | zero => intro n ds; simp [Nat.toDigitsCore]
  | succ f ih =>
    intro n ds
    simp only [Nat.toDigitsCore]
    by_cases h0 : n / 10 = 0
    · simp [h0]
    · simp only [if_neg h0]
      rw [ih (n / 10) (Nat.digitChar (n % 10) :: ds), ih (n / 10) [Nat.digitChar (n % 10)]]
      simp

lemma toDigitsCore_fuel (n : Nat) : ∀ fuel, n < fuel →
    Nat.toDigitsCore 10 fuel n [] = Nat.toDigits 10 n := by
  induction n using Nat.strong_induction_on with
  | _ n ih =>
    intro fuel hf
    match fuel, hf with
    | f + 1, hf =>
      show Nat.toDigitsCore 10 (f + 1) n [] = Nat.toDigitsCore 10 (n + 1) n []
      simp only [Nat.toDigitsCore]
      by_cases h0 : n / 10 = 0
      · simp [h0]
      · simp only [if_neg h0]
        have hten : 10 ≤ n := by
          by_contra hlt
          exact h0 (Nat.div_eq_of_lt (by omega))
        have hlt : n / 10 < n := Nat.div_lt_self (by omega) (by omega)
        rw [toDigitsCore_append f, toDigitsCore_append n,
          ih (n / 10) hlt f (by omega), ih (n / 10) hlt n (by omega)]

lemma toDigits_lt {n : Nat} (h : n < 10) : Nat.toDigits 10 n = [Nat.digitChar n] := by
  show Nat.toDigitsCore 10 (n + 1) n [] = [Nat.digitChar n]
  simp only [Nat.toDigitsCore]
  rw [if_pos (Nat.div_eq_of_lt h), Nat.mod_eq_of_lt h]

lemma toDigits_ge {n : Nat} (h : 10 ≤ n) :
    Nat.toDigits 10 n = Nat.toDigits 10 (n / 10) ++ [Nat.digitChar (n % 10)] := by
  show Nat.toDigitsCore 10 (n + 1) n [] = _
  simp only [Nat.toDigitsCore]
  have h0 : n / 10 ≠ 0 := Nat.pos_iff_ne_zero.mp (Nat.div_pos h (by omega))
  rw [if_neg h0, toDigitsCore_append n, toDigitsCore_fuel (n / 10) n
    (Nat.div_lt_self (by omega) (by omega))]

lemma toDigits_ne_nil (n : Nat) : Nat.toDigits 10 n ≠ [] := by
  by_cases h : n < 10
  · rw [toDigits_lt h]; simp
  · rw [toDigits_ge (by omega)]; simp

lemma toDigits_all_digit (n : Nat) : ∀ c ∈ Nat.toDigits 10 n, c.isDigit = true := by
  induction n using Nat.strong_induction_on with
  | _ n ih =>
    by_cases h : n < 10
    · rw [toDigits_lt h]
      intro c hc
      rw [List.mem_singleton] at hc
      subst hc
      exact digitChar_isDigit h
    · rw [toDigits_ge (by omega)]
      intro c hc
      rcases List.mem_append.mp hc with hc | hc
      · exact ih (n / 10) (Nat.div_lt_self (by omega) (by omega)) c hc
      · rw [List.mem_singleton] at hc
        subst hc
        exact digitChar_isDigit (Nat.mod_lt n (by omega))

lemma valDigits_concat (l : List Char) (d : Char) :
    valDigits (l ++ [d]) = 10 * valDigits l + (d.toNat - 48) := by
  simp [valDigits, List.foldl_append]

lemma valDigits_toDigits (n : Nat) : valDigits (Nat.toDigits 10 n) = n := by
  induction n using Nat.strong_induction_on with
  | _ n ih =>
    by_cases h : n < 10
    · rw [toDigits_lt h]
      show 10 * 0 + ((Nat.digitChar n).toNat - 48) = n
      rw [digitChar_toNat h]
      omega
    · rw [toDigits_ge (by omega), valDigits_concat,
        ih (n / 10) (Nat.div_lt_self (by omega) (by omega)),
        digitChar_toNat (Nat.mod_lt n (by omega))]
      omega

lemma repr_data (n : Nat) : (Nat.repr n).data = Nat.toDigits 10 n := rfl

/-! ### `parseU16` lemmas -/

lemma parseU16_of_digits {l : List Char} (hne : l ≠ []) (hd : ∀ c ∈ l, c.isDigit = true)
    (hv : valDigits l ≤ 65535) : parseU16 ⟨l⟩ = some (valDigits l) := by
  match l, hne with
  | c :: rest, _ =>
    have hc : c.isDigit = true := hd c (List.mem_cons_self c rest)
    have hcp : ¬(c = '+') := by
      intro he
      subst he
      simp at hc
    show (if c = '+' then parseU16Digits rest else parseU16Digits (c :: rest)) = _
    rw [if_neg hcp]
    simp only [parseU16Digits, List.isEmpty_cons, if_neg (by simp : ¬(false = true)),
      List.all_eq_true]
    rw [if_pos hd, if_pos hv]

lemma parseU16_repr {p : Nat} (hp : p ≤ 65535) : parseU16 (Nat.repr p) = some p := by
  have : Nat.repr p = (⟨Nat.toDigits 10 p⟩ : String) := rfl
  rw [this, parseU16_of_digits (toDigits_ne_nil p) (toDigits_all_digit p)
    (by rw [valDigits_toDigits]; exact hp), valDigits_toDigits]

lemma parseU16_some_chars {t : String} {n : Nat} (h : parseU16 t = some n) :
    ∀ c ∈ t.data, c.isDigit = true ∨ c = '+' := by
  match ht : t.data with
  | [] => simp
  | c :: rest =>
    have he : parseU16 t = if c = '+' then parseU16Digits rest
        else parseU16Digits (c :: rest) := by
      show (match t.data with
        | [] => none
        | c :: rest => if c = '+' then parseU16Digits rest
            else parseU16Digits (c :: rest)) = _
      rw [ht]
    rw [he] at h
    have hdig : ∀ l m, parseU16Digits l = some m → ∀ x ∈ l, x.isDigit = true := by
      intro l m hl x hx
      simp only [parseU16Digits] at hl
      split_ifs at hl with h1 h2 h3
      · exact (List.all_eq_true.mp h2) x hx
    by_cases hcp : c = '+'
    · subst hcp
      rw [if_pos rfl] at h
      intro x hx
      rcases List.mem_cons.mp hx with rfl | hx
      · exact Or.inr rfl
      · exact Or.inl (hdig rest n h x hx)
    · rw [if_neg hcp] at h
      intro x hx
      exact Or.inl (hdig (c :: rest) n h x hx)

lemma parseU16_no_colon {t : String} {n : Nat} (h : parseU16 t = some n) :
    ':' ∉ t.data := by
  intro hmem
  rcases parseU16_some_chars h ':' hmem with hd | hp
  · simp at hd
  · simp at hp

/-! ### `splitChar` and `joinParts` lemmas -/

/-- Proof helper: rejoin the segments of a split with the separator. -/
def joinParts (c : Char) : List (List Char) → List Char
  | [] => []
  | [p] => p
  | p :: q :: ps => p ++ c :: joinParts c (q :: ps)

lemma splitChar_cons_pos {c x : Char} (h : x = c) (xs : List Char) :
    splitChar c (x :: xs) = [] :: splitChar c xs := by
  simp [splitChar, splitCharAux, h]

lemma splitChar_cons_neg {c x : Char} (h : ¬(x = c)) (xs : List Char) :
    splitChar c (x :: xs) = (x :: (splitCharAux c xs).1) :: (splitCharAux c xs).2 := by
  simp [splitChar, splitCharAux, h]

lemma joinParts_cons_cons (c : Char) (p q : List Char) (ps : List (List Char)) :
    joinParts c (p :: q :: ps) = p ++ c :: joinParts c (q :: ps) := rfl

lemma joinParts_splitChar (c : Char) (l : List Char) :
    joinParts c (splitChar c l) = l := by
  induction l with
  | nil => rfl
  | cons x xs ih =>
    by_cases hx : x = c
    · rw [splitChar_cons_pos hx xs]
      show c :: joinParts c (splitChar c xs) = x :: xs
      rw [ih, hx]
    · rw [splitChar_cons_neg hx xs]
      have hxs : splitChar c xs = (splitCharAux c xs).1 :: (splitCharAux c xs).2 := rfl
      rcases hr : (splitCharAux c xs).2 with _ | ⟨q, ps⟩
      · rw [hxs, hr] at ih
        have ih2 : (splitCharAux c xs).1 = xs := ih
        show x :: (splitCharAux c xs).1 = x :: xs
        rw [ih2]
      · rw [hxs, hr, joinParts_cons_cons] at ih
        rw [joinParts_cons_cons]
        simp only [List.cons_append, List.cons.injEq, true_and]
        exact ih

lemma mem_of_mem_splitChar (c : Char) :
    ∀ {l : List Char} {p : List Char} {x : Char},
      p ∈ splitChar c l → x ∈ p → x ∈ l ∧ x ≠ c := by
  intro l
  induction l with
  | nil =>
    intro p x hp hx
    simp only [splitChar, splitCharAux, List.mem_singleton] at hp
    subst hp
    simp at hx
  | cons y ys ih =>
    intro p x hp hx
    by_cases hy : y = c
    · rw [splitChar_cons_pos hy ys] at hp
      rcases List.mem_cons.mp hp with rfl | hp
      · simp at hx
      · obtain ⟨hmem, hne⟩ := ih hp hx
        exact ⟨List.mem_cons_of_mem y hmem, hne⟩
    · rw [splitChar_cons_neg hy ys] at hp
      rcases List.mem_cons.mp hp with rfl | hp
      · rcases List.mem_cons.mp hx with rfl | hx
        · exact ⟨List.mem_cons_self x ys, hy⟩
        · obtain ⟨hmem, hne⟩ := ih (List.mem_cons_self _ _) hx
          exact ⟨List.mem_cons_of_mem y hmem, hne⟩
      · obtain ⟨hmem, hne⟩ := ih (List.mem_cons_of_mem _ hp) hx
        exact ⟨List.mem_cons_of_mem y hmem, hne⟩

lemma mem_joinParts (c : Char) :
    ∀ {ps : List (List Char)} {x : Char},
      x ∈ joinParts c ps → x = c ∨ ∃ p ∈ ps, x ∈ p := by
  intro ps
  induction ps with
  | nil => intro x hx; simp [joinParts] at hx
  | cons p ps ih =>
    intro x hx
    match ps with
    | [] =>
      exact Or.inr ⟨p, List.mem_cons_self p [], hx⟩
    | q :: ps' =>
      rw [joinParts_cons_cons] at hx
      rcases List.mem_append.mp hx with hx | hx
      · exact Or.inr ⟨p, List.mem_cons_self _ _, hx⟩
      · rcases List.mem_cons.mp hx with rfl | hx
        · exact Or.inl rfl
        · rcases ih hx with h | ⟨p', hp', hx'⟩
          · exact Or.inl h
          · exact Or.inr ⟨p', List.mem_cons_of_mem p hp', hx'⟩

lemma joinParts_ne_nil {c : Char} {ps : List (List Char)} {q : List Char}
    (hl : ps.getLast? = some q) (hq : q ≠ []) : joinParts c ps ≠ [] := by
  match ps with
  | [] => simp at hl
  | [p] =>
    simp only [List.getLast?_cons_cons, List.getLast?_singleton, Option.some.injEq] at hl
    subst hl
    exact hq
  | p :: r :: ps' =>
    rw [joinParts_cons_cons]
    simp

lemma getLast?_cons_of_ne_nil {a : Char} {l : List Char} (h : l ≠ []) :
    (a :: l).getLast? = l.getLast? := by
  match l with
  | b :: l' => exact List.getLast?_cons_cons

lemma getLast?_joinParts {c : Char} :
    ∀ {ps : List (List Char)} {q : List Char},
      ps.getLast? = some q → q ≠ [] → (joinParts c ps).getLast? = q.getLast? := by
  intro ps
  induction ps with
  | nil => intro q hl; simp at hl
  | cons p ps ih =>
    intro q hl hq
    match ps with
    | [] =>
      simp only [List.getLast?_singleton, Option.some.injEq] at hl
      subst hl
      rfl
    | r :: ps' =>
      rw [List.getLast?_cons_cons] at hl
      rw [joinParts_cons_cons,
        List.getLast?_append_of_ne_nil p (by simp),
        getLast?_cons_of_ne_nil (joinParts_ne_nil hl hq)]
      exact ih hl hq

lemma head?_joinParts {c : Char} {p : List Char} (ps : List (List Char)) (hp : p ≠ []) :
    (joinParts c (p :: ps)).head? = p.head? := by
  match ps with
  | [] => rfl
  | q :: ps' =>
    rw [joinParts_cons_cons, List.head?_append_of_ne_nil _ hp]

/-! ### Characterizations of `is_valid_label` and `is_valid_host` -/

lemma bnot_eq_true_of_ne {b : Bool} (h : ¬(b = true)) : (!b) = true := by
  cases b
  · rfl
  · exact absurd rfl h

lemma bnot_eq_false_of_eq {b : Bool} (h : b = true) : (!b) = false := by
  rw [h]
  rfl

lemma is_valid_label_iff (l : List Char) :
    is_valid_label l = true ↔
      l ≠ [] ∧ utf8Len l ≤ 63 ∧ l.head? ≠ some '-' ∧ l.getLast? ≠ some '-' ∧
      (∀ c ∈ l, is_valid_label_char c = true) ∧ ¬(∀ c ∈ l, c.isDigit = true) := by
  unfold is_valid_label
  split_ifs with h1 h2 h3 h4
  · simp only [false_iff]
    rintro ⟨hne, hlen, -, -, -, -⟩
    simp only [Bool.or_eq_true, List.isEmpty_iff, decide_eq_true_eq] at h1
    rcases h1 with h | h
    · exact hne h
    · omega
  · simp only [false_iff]
    rintro ⟨-, -, hh, hl, -, -⟩
    simp only [Bool.or_eq_true, beq_iff_eq] at h2
    rcases h2 with h | h
    · exact hh h
    · exact hl h
  · simp only [false_iff]
    rintro ⟨-, -, -, -, hall, -⟩
    obtain ⟨c, hc, hnc⟩ := List.any_eq_true.mp h3
    rw [Bool.not_eq_true'] at hnc
    rw [hall c hc] at hnc
    cases hnc
  · simp only [false_iff]
    rintro ⟨-, -, -, -, -, hnd⟩
    exact hnd (List.all_eq_true.mp h4)
  · simp only [true_iff]
    simp only [Bool.or_eq_true, List.isEmpty_iff, decide_eq_true_eq, not_or] at h1
    simp only [Bool.or_eq_true, beq_iff_eq, not_or] at h2
    refine ⟨h1.1, by omega, h2.1, h2.2, ?_, ?_⟩
    · intro c hc
      by_contra hfc
      exact h3 (List.any_eq_true.mpr ⟨c, hc, bnot_eq_true_of_ne hfc⟩)
    · intro hall
      exact h4 (List.all_eq_true.mpr hall)

lemma is_valid_host_iff (s : String) :
    is_valid_host s = true ↔
      s.data ≠ [] ∧ utf8Len s.data ≤ 255 ∧
      (∀ c, s.data.head? = some c → c.isAlphanum = true) ∧
      (∀ c, s.data.getLast? = some c → c.isAlphanum = true) ∧
      (∀ c ∈ s.data, is_valid_host_char c = true) ∧
      (((splitChar '.' s.data).length = 3 ∧ ∀ c ∈ s.data, c.isDigit = true ∨ c = '.') →
        is_valid_ipv4 s.data = true) ∧
      (¬((splitChar '.' s.data).length = 3 ∧ ∀ c ∈ s.data, c.isDigit = true ∨ c = '.') →
        ∀ p ∈ splitChar '.' s.data, is_valid_label p = true) := by
  constructor
  · intro h
    unfold is_valid_host at h
    split_ifs at h with h1 h2 h3 h4 h5 h6
    · -- IPv4 branch
      simp only [Bool.and_eq_true, beq_iff_eq, List.all_eq_true, Bool.or_eq_true] at h6
      have h6' : (splitChar '.' s.data).length = 3 ∧
          ∀ c ∈ s.data, c.isDigit = true ∨ c = '.' := by
        refine ⟨h6.1, fun c hc => ?_⟩
        rcases h6.2 c hc with hd | hd
        · exact Or.inl hd
        · exact Or.inr (by simpa [beq_iff_eq] using hd)
      rw [Bool.not_eq_true'] at h3 h4
      refine ⟨h1, by omega, ?_, ?_, ?_, fun _ => h, fun hn => absurd h6' hn⟩
      · intro c hc
        rw [List.head?_eq_head h1, Option.some.injEq] at hc
        subst hc
        simpa using h3
      · intro c hc
        rw [List.getLast?_eq_getLast _ h1, Option.some.injEq] at hc
        subst hc
        simpa using h4
      · intro c hc
        by_contra hfc
        exact h5 (List.any_eq_true.mpr ⟨c, hc, bnot_eq_true_of_ne hfc⟩)
    · -- label branch
      have h6' : ¬((splitChar '.' s.data).length = 3 ∧
          ∀ c ∈ s.data, c.isDigit = true ∨ c = '.') := by
        intro ⟨ha, hb⟩
        apply h6
        simp only [Bool.and_eq_true, beq_iff_eq, List.all_eq_true, Bool.or_eq_true]
        refine ⟨ha, fun c hc => ?_⟩
        rcases hb c hc with hd | hd
        · exact Or.inl hd
        · exact Or.inr (by simp [hd])
      rw [Bool.not_eq_true'] at h3 h4
      refine ⟨h1, by omega, ?_, ?_, ?_, fun hc => absurd hc h6',
        fun _ => List.all_eq_true.mp h⟩
      · intro c hc
        rw [List.head?_eq_head h1, Option.some.injEq] at hc
        subst hc
        simpa using h3
      · intro c hc
        rw [List.getLast?_eq_getLast _ h1, Option.some.injEq] at hc
        subst hc
        simpa using h4
      · intro c hc
        by_contra hfc
        exact h5 (List.any_eq_true.mpr ⟨c, hc, bnot_eq_true_of_ne hfc⟩)
  · rintro ⟨hne, hlen, hh, hl, hcs, hip, hlab⟩
    unfold is_valid_host
    rw [dif_neg hne, if_neg (by omega : ¬(utf8Len s.data > 255)),
      if_neg, if_neg, if_neg]
    · by_cases hcond : ((splitChar '.' s.data).length == 3
          && s.data.all (fun c => c.isDigit || c == '.')) = true
      · rw [if_pos hcond]
        apply hip
        simp only [Bool.and_eq_true, beq_iff_eq, List.all_eq_true, Bool.or_eq_true] at hcond
        refine ⟨hcond.1, fun c hc => ?_⟩
        rcases hcond.2 c hc with hd | hd
        · exact Or.inl hd
        · exact Or.inr (by simpa [beq_iff_eq] using hd)
      · rw [if_neg hcond]
        apply List.all_eq_true.mpr
        apply hlab
        intro ⟨ha, hb⟩
        apply hcond
        simp only [Bool.and_eq_true, beq_iff_eq, List.all_eq_true, Bool.or_eq_true]
        refine ⟨ha, fun c hc => ?_⟩
        rcases hb c hc with hd | hd
        · exact Or.inl hd
        · exact Or.inr (by simp [hd])
    · rw [Bool.not_eq_true, List.any_eq_false]
      intro c hc
      intro hbad
      rw [bnot_eq_false_of_eq (hcs c hc)] at hbad
      exact Bool.noConfusion hbad
    · rw [Bool.not_eq_true]
      exact bnot_eq_false_of_eq (hl _ (List.getLast?_eq_getLast _ hne))
    · rw [Bool.not_eq_true]
      exact bnot_eq_false_of_eq (hh _ (List.head?_eq_head hne))

lemma mem_of_getLast?_eq {l : List Char} {a : Char} (h : l.getLast? = some a) : a ∈ l := by
  obtain ⟨hne, rfl⟩ := List.mem_getLast?_eq_getLast (Option.mem_def.mpr h)
  exact List.getLast_mem hne

lemma new_ok_valid {u : String} {p : Nat} {hp : HostPort}
    (hok : HostPort.new u p = Except.ok hp) : is_valid_host hp.host = true := by
  unfold HostPort.new at hok
  split_ifs at hok with hv
  simp only [Except.ok.injEq] at hok
  subst hok
  exact hv

lemma tryFrom_ok_valid {s : String} {hp : HostPort}
    (hok : HostPort.tryFrom s = Except.ok hp) : is_valid_host hp.host = true := by
  unfold HostPort.tryFrom at hok
  match hsp : splitOnce s ':' with
  | none => rw [hsp] at hok; exact Except.noConfusion hok
  | some (u, pstr) =>
    rw [hsp] at hok
    have hok2 : (match parseU16 pstr with
        | none => Except.error (HostPortParseError.InvalidPort pstr)
        | some port => HostPort.new u port) = Except.ok hp := hok
    match hpu : parseU16 pstr with
    | none => rw [hpu] at hok2; exact Except.noConfusion hok2
    | some port => rw [hpu] at hok2; exact new_ok_valid hok2

/-- C1: the spec (following the crate's own doc examples) says
`is_valid_host("10.10.10.10")` returns `true`; the code returns `false`:
splitting on `.` yields 4 parts, so the IPv4 branch (which requires exactly
3 parts) is skipped and each all-digit label `"10"` fails the label rule.
This theorem evaluates the embedded code at the failing input. -/
theorem C1_dotted_quad_rejected_by_code : is_valid_host "10.10.10.10" = false := by
  decide

/-- C2 counterexample: the claim says every construction path yields a host
satisfying `is_valid_host`, but the derived `Default` value carries the empty
host and the `SocketAddrV4` conversion carries a dotted-quad host, both of
which fail the validator. -/
theorem C2_default_and_socket_hosts_invalid :
    is_valid_host hostPortDefault.host = false ∧
    is_valid_host (HostPort.fromSocketAddrV4 10 10 10 10 28000).host = false := by
  constructor
  · decide
  · decide

/-- C2 (amended): every `HostPort` produced by the validated constructor
`HostPort::new` or by the parser `TryFrom<&str>` has a host satisfying
`is_valid_host`. -/
theorem C2_validated_paths_satisfy_validator :
    (∀ (u : String) (p : Nat) (hp : HostPort),
      HostPort.new u p = Except.ok hp → is_valid_host hp.host = true) ∧
    (∀ (s : String) (hp : HostPort),
      HostPort.tryFrom s = Except.ok hp → is_valid_host hp.host = true) :=
  ⟨fun _ _ _ hok => new_ok_valid hok, fun _ _ hok => tryFrom_ok_valid hok⟩

theorem C2_validated_paths_witness :
    is_valid_host (HostPort.mk "localhost" 28000).host = true :=
  C2_validated_paths_satisfy_validator.1 "localhost" 28000 ⟨"localhost", 28000⟩ rfl

/-- Helper for `isU16Numeral`: the candidate's characters after the optional
single leading `+`. -/
def plusStripped (t : String) : List Char :=
  if t.data.head? == some '+' then t.data.tail else t.data

/-- The port-candidate grammar of the amended claim, stated from the spec's
words: an optional single leading `+`, then a non-empty run of ASCII decimal
digits whose value is at most 65535. -/
def isU16Numeral (t : String) : Bool :=
  plusStripped t ≠ [] && (plusStripped t).all (fun c => c.isDigit) &&
    valDigits (plusStripped t) ≤ 65535

lemma plusStripped_nil {t : String} (ht : t.data = []) : plusStripped t = [] := by
  unfold plusStripped
  rw [ht]
  rfl

lemma plusStripped_cons_plus {t : String} {rest : List Char}
    (ht : t.data = '+' :: rest) : plusStripped t = rest := by
  unfold plusStripped
  rw [ht]
  simp

lemma plusStripped_cons {t : String} {c : Char} {rest : List Char}
    (hc : ¬(c = '+')) (ht : t.data = c :: rest) : plusStripped t = c :: rest := by
  unfold plusStripped
  rw [ht]
  simp [hc]

lemma parseU16_data_nil {t : String} (ht : t.data = []) : parseU16 t = none := by
  unfold parseU16
  rw [ht]

lemma parseU16_data_cons {t : String} {c : Char} {rest : List Char}
    (ht : t.data = c :: rest) :
    parseU16 t = if c = '+' then parseU16Digits rest else parseU16Digits (c :: rest) := by
  unfold parseU16
  rw [ht]

lemma parseU16Digits_none_iff (l : List Char) :
    parseU16Digits l = none ↔
      (decide (l ≠ []) && l.all (fun c => c.isDigit) && decide (valDigits l ≤ 65535))
        = false := by
  unfold parseU16Digits
  split_ifs with h1 h2 h3
  · simp only [List.isEmpty_iff] at h1
    simp [h1]
  · simp only [List.isEmpty_iff] at h1
    simp [h1, h2, h3]
  · simp only [List.isEmpty_iff] at h1
    simp [h1, h2, h3]
  · simp only [List.isEmpty_iff] at h1
    rw [Bool.not_eq_true] at h2
    simp [h1, h2]

lemma parseU16_none_iff (t : String) :
    parseU16 t = none ↔ isU16Numeral t = false := by
  unfold isU16Numeral
  match ht : t.data with
  | [] =>
    rw [parseU16_data_nil ht, plusStripped_nil ht]
    simp
  | c :: rest =>
    by_cases hc : c = '+'
    · subst hc
      rw [parseU16_data_cons ht, if_pos rfl, plusStripped_cons_plus ht,
        parseU16Digits_none_iff rest]
    · rw [parseU16_data_cons ht, if_neg hc, plusStripped_cons hc ht,
        parseU16Digits_none_iff (c :: rest)]

/-- C3 counterexample: the claim says a port candidate with a leading `+`
fails with `InvalidPort`, but Rust's `u16` parsing accepts an optional
leading `+`, so `"localhost:+80"` parses successfully. -/
theorem C3_plus_sign_port_accepted :
    HostPort.tryFrom "localhost:+80" = Except.ok ⟨"localhost", 80⟩ := rfl

/-- C3 (amended): for every port candidate that is not a 16-bit unsigned
decimal numeral optionally preceded by a single leading `+` — including
candidates with surrounding whitespace and the empty candidate — `parse`
fails with `InvalidPort` carrying that candidate text. -/
theorem C3_invalid_port_candidates_rejected :
    ∀ (s u t : String), splitOnce s ':' = some (u, t) → isU16Numeral t = false →
      HostPort.tryFrom s = Except.error (HostPortParseError.InvalidPort t) := by
  intro s u t hsp hnum
  unfold HostPort.tryFrom
  rw [hsp]
  show (match parseU16 t with
    | none => Except.error (HostPortParseError.InvalidPort t)
    | some port => HostPort.new u port) = _
  rw [(parseU16_none_iff t).mpr hnum]

theorem C3_invalid_port_witness :
    HostPort.tryFrom "host:" = Except.error (HostPortParseError.InvalidPort "") ∧
    HostPort.tryFrom "host: 80" = Except.error (HostPortParseError.InvalidPort " 80") :=
  ⟨C3_invalid_port_candidates_rejected "host:" "host" "" rfl rfl,
   C3_invalid_port_candidates_rejected "host: 80" "host" " 80" rfl rfl⟩

/-- C8: `parse` splits its input at the first `:` — a successful split yields
a colon-free host candidate with the input being host ++ `:` ++ port — and
every input without a `:` fails with `InvalidFormat`. -/
theorem C8_first_colon_split_and_invalid_format :
    ∀ s : String,
      (∀ u t : String, splitOnce s ':' = some (u, t) →
        s.data = u.data ++ ':' :: t.data ∧ ':' ∉ u.data) ∧
      (':' ∉ s.data →
        HostPort.tryFrom s = Except.error HostPortParseError.InvalidFormat) := by
  intro s
  constructor
  · intro u t hsp
    unfold splitOnce at hsp
    match hq : splitOnceList ':' s.data with
    | none => rw [hq] at hsp; exact Option.noConfusion hsp
    | some (a, b) =>
      rw [hq] at hsp
      simp only [Option.map_some', Option.some.injEq, Prod.mk.injEq] at hsp
      obtain ⟨rfl, rfl⟩ := hsp
      exact splitOnceList_eq_some hq
  · intro hnc
    unfold HostPort.tryFrom
    rw [show splitOnce s ':' = none from by
      unfold splitOnce
      rw [splitOnceList_eq_none hnc]
      rfl]

theorem C8_witness :
    ("quake.se:80".data = "quake.se".data ++ ':' :: "80".data ∧
      ':' ∉ "quake.se".data) ∧
    HostPort.tryFrom "quakese80" = Except.error HostPortParseError.InvalidFormat :=
  ⟨(C8_first_colon_split_and_invalid_format "quake.se:80").1 "quake.se" "80" rfl,
   (C8_first_colon_split_and_invalid_format "quakese80").2 (by decide)⟩

/-- C7: the validator rejects the empty string, strings of more than 255
characters, strings whose first or last character is not ASCII alphanumeric,
and strings containing a character other than ASCII alphanumerics, `-`
and `.`. -/
theorem C7_rejection_conditions :
    ∀ s : String,
      (s.data = [] ∨ 255 < s.data.length ∨
        (∃ c, s.data.head? = some c ∧ c.isAlphanum = false) ∨
        (∃ c, s.data.getLast? = some c ∧ c.isAlphanum = false) ∨
        (∃ c ∈ s.data, is_valid_host_char c = false)) →
      is_valid_host s = false := by
  intro s hdisj
  cases hval : is_valid_host s with
  | false => rfl
  | true =>
    exfalso
    obtain ⟨hne, hlen, hh, hl, hcs, -, -⟩ := (is_valid_host_iff s).mp hval
    rcases hdisj with h | h | ⟨c, hc, hcf⟩ | ⟨c, hc, hcf⟩ | ⟨c, hc, hcf⟩
    · exact hne h
    · have := length_le_utf8Len s.data
      omega
    · rw [hh c hc] at hcf; exact Bool.noConfusion hcf
    · rw [hl c hc] at hcf; exact Bool.noConfusion hcf
    · rw [hcs c hc] at hcf; exact Bool.noConfusion hcf

theorem C7_witness :
    is_valid_host "" = false ∧ is_valid_host "-a" = false ∧
    is_valid_host "a-" = false ∧ is_valid_host "a_b" = false :=
  ⟨C7_rejection_conditions "" (Or.inl rfl),
   C7_rejection_conditions "-a" (Or.inr (Or.inr (Or.inl ⟨'-', rfl, rfl⟩))),
   C7_rejection_conditions "a-" (Or.inr (Or.inr (Or.inr (Or.inl ⟨'-', rfl, rfl⟩)))),
   C7_rejection_conditions "a_b" (Or.inr (Or.inr (Or.inr (Or.inr
     ⟨'_', by decide, rfl⟩))))⟩

lemma all_digit_dot_invalid {s : String}
    (hall : ∀ c ∈ s.data, c.isDigit = true ∨ c = '.') : is_valid_host s = false := by
  cases hval : is_valid_host s with
  | false => rfl
  | true =>
    exfalso
    obtain ⟨hne, -, -, -, -, hip, hlab⟩ := (is_valid_host_iff s).mp hval
    by_cases h3 : (splitChar '.' s.data).length = 3 ∧
        ∀ c ∈ s.data, c.isDigit = true ∨ c = '.'
    · have hip4 := hip h3
      unfold is_valid_ipv4 at hip4
      simp only [Bool.and_eq_true, beq_iff_eq] at hip4
      omega
    · have hp1 := hlab h3 ((splitCharAux '.' s.data).1)
        (List.mem_cons_self _ _)
      obtain ⟨hpne, -, -, -, -, hnd⟩ := (is_valid_label_iff _).mp hp1
      apply hnd
      intro c hc
      obtain ⟨hmem, hnotdot⟩ :=
        mem_of_mem_splitChar '.' (List.mem_cons_self _ _) hc
      rcases hall c hmem with hd | hd
      · exact hd
      · exact absurd hd hnotdot

/-- C5: any string whose split on `.` has exactly 3 parts and whose
characters are all digits or dots is rejected (the IPv4 parser requires four
octets), and more generally no string consisting solely of digits and dots is
ever accepted as a host. -/
theorem C5_all_numeric_rejected :
    ∀ s : String,
      ((splitChar '.' s.data).length = 3 ∧
        (∀ c ∈ s.data, c.isDigit = true ∨ c = '.') → is_valid_host s = false) ∧
      ((∀ c ∈ s.data, c.isDigit = true ∨ c = '.') → is_valid_host s = false) :=
  fun _ => ⟨fun h => all_digit_dot_invalid h.2, fun h => all_digit_dot_invalid h⟩

theorem C5_witness :
    is_valid_host "10.10.10" = false ∧ is_valid_host "1234" = false :=
  ⟨(C5_all_numeric_rejected "10.10.10").1 ⟨by decide, by decide⟩,
   (C5_all_numeric_rejected "1234").2 (by decide)⟩

lemma valid_host_no_colon {u : String} (h : is_valid_host u = true) : ':' ∉ u.data := by
  intro hmem
  obtain ⟨-, -, -, -, hcs, -, -⟩ := (is_valid_host_iff u).mp h
  have := hcs ':' hmem
  exact Bool.noConfusion this

lemma append_colon_data (u t : String) :
    (u ++ ":" ++ t).data = u.data ++ ':' :: t.data := by
  rw [String.data_append, String.data_append]
  show u.data ++ [':'] ++ t.data = _
  rw [List.append_assoc, List.singleton_append]

lemma splitOnce_append_colon {u : String} (hnc : ':' ∉ u.data) (t : String) :
    splitOnce (u ++ ":" ++ t) ':' = some (u, t) := by
  unfold splitOnce
  rw [append_colon_data, splitOnceList_append hnc]
  rfl

/-- C4: for every host accepted by the validator and every port in the `u16`
range, constructing from the pair and parsing the rendered
`"host:port"` string both succeed with the same value; in particular
`parse (render v) = v` for every valid value `v`. -/
theorem C4_parse_render_round_trip :
    ∀ (u : String) (p : Nat), is_valid_host u = true → p ≤ 65535 →
      HostPort.new u p = Except.ok ⟨u, p⟩ ∧
      HostPort.tryFrom (u ++ ":" ++ Nat.repr p) = Except.ok ⟨u, p⟩ ∧
      HostPort.tryFrom (HostPort.render ⟨u, p⟩) = Except.ok ⟨u, p⟩ := by
  intro u p hv hp
  have hnew : HostPort.new u p = Except.ok ⟨u, p⟩ := by
    unfold HostPort.new
    rw [if_pos hv]
  have htry : HostPort.tryFrom (u ++ ":" ++ Nat.repr p) = Except.ok ⟨u, p⟩ := by
    unfold HostPort.tryFrom
    rw [splitOnce_append_colon (valid_host_no_colon hv)]
    show (match parseU16 (Nat.repr p) with
      | none => Except.error (HostPortParseError.InvalidPort (Nat.repr p))
      | some port => HostPort.new u port) = _
    rw [parseU16_repr hp]
    exact hnew
  exact ⟨hnew, htry, htry⟩

theorem C4_witness :
    HostPort.new "quake.se" 28501 = Except.ok ⟨"quake.se", 28501⟩ ∧
    HostPort.tryFrom ("quake.se" ++ ":" ++ Nat.repr 28501) =
      Except.ok ⟨"quake.se", 28501⟩ ∧
    HostPort.tryFrom (HostPort.render ⟨"quake.se", 28501⟩) =
      Except.ok ⟨"quake.se", 28501⟩ :=
  C4_parse_render_round_trip "quake.se" 28501 (by decide) (by decide)

lemma eqStr_none {hp : HostPort} {s : String} (hq : rsplitOnce s ':' = none) :
    HostPort.eqStr hp s = false := by
  unfold HostPort.eqStr
  rw [hq]

lemma eqStr_some {hp : HostPort} {s u t : String}
    (hq : rsplitOnce s ':' = some (u, t)) :
    HostPort.eqStr hp s =
      (match parseU16 t with
        | some port => hp.host == u && hp.port == port
        | none => false) := by
  unfold HostPort.eqStr
  rw [hq]

/-- C9: comparing a `HostPort` against a raw string splits the string at the
last `:` (a successful split decomposes the string with a colon-free suffix)
and is `true` exactly when the host matches and the suffix parses to the same
port; malformed strings (no `:`, or a non-`u16` suffix) compare `false`. -/
theorem C9_eq_str_last_colon :
    ∀ (hp : HostPort) (s : String),
      (HostPort.eqStr hp s = true ↔
        ∃ u t : String, rsplitOnce s ':' = some (u, t) ∧ hp.host = u ∧
          parseU16 t = some hp.port) ∧
      (∀ u t : String, rsplitOnce s ':' = some (u, t) →
        s.data = u.data ++ ':' :: t.data ∧ ':' ∉ t.data) ∧
      (rsplitOnce s ':' = none → HostPort.eqStr hp s = false) ∧
      (∀ u t : String, rsplitOnce s ':' = some (u, t) → parseU16 t = none →
        HostPort.eqStr hp s = false) := by
  intro hp s
  refine ⟨?_, ?_, fun hq => eqStr_none hq, ?_⟩
  · constructor
    · intro he
      match hq : rsplitOnce s ':' with
      | none =>
        rw [eqStr_none hq] at he
        exact Bool.noConfusion he
      | some (u0, t0) =>
        rw [eqStr_some hq] at he
        match hpu : parseU16 t0 with
        | none =>
          rw [hpu] at he
          exact Bool.noConfusion he
        | some port =>
          rw [hpu] at he
          simp only [Bool.and_eq_true, beq_iff_eq] at he
          exact ⟨u0, t0, rfl, he.1, by rw [hpu, he.2]⟩
    · rintro ⟨u0, t0, hq, hh, hpu⟩
      rw [eqStr_some hq, hpu]
      simp [hh]
  · intro u t hq
    unfold rsplitOnce at hq
    match hr : splitOnceList ':' s.data.reverse with
    | none =>
      rw [hr] at hq
      exact Option.noConfusion hq
    | some (a, b) =>
      rw [hr] at hq
      simp only [Option.map_some', Option.some.injEq, Prod.mk.injEq] at hq
      obtain ⟨hu, ht⟩ := hq
      obtain ⟨hsplit, hnc⟩ := splitOnceList_eq_some hr
      subst hu
      subst ht
      constructor
      · have hrev : s.data = (a ++ ':' :: b).reverse := by
          rw [← hsplit, List.reverse_reverse]
        rw [hrev, List.reverse_append, List.reverse_cons, List.append_assoc,
          List.singleton_append]
      · intro hmem
        exact hnc (List.mem_reverse.mp hmem)
  · intro u t hq hpu
    rw [eqStr_some hq, hpu]

theorem C9_witness :
    (HostPort.eqStr ⟨"quake.se", 28501⟩ "quake.se:28501" = true) ∧
    (HostPort.eqStr ⟨"quake.se", 28501⟩ "quake.se" = false) ∧
    (HostPort.eqStr ⟨"quake.se", 28501⟩ "quake.se:2850x" = false) :=
  ⟨((C9_eq_str_last_colon ⟨"quake.se", 28501⟩ "quake.se:28501").1).mpr
     ⟨"quake.se", "28501", rfl, rfl, rfl⟩,
   (C9_eq_str_last_colon ⟨"quake.se", 28501⟩ "quake.se").2.2.1 rfl,
   (C9_eq_str_last_colon ⟨"quake.se", 28501⟩ "quake.se:2850x").2.2.2
     "quake.se" "2850x" rfl rfl⟩

/-- C10: the raw-string equality accepts every textual spelling of the port
that parses to the stored value — e.g. leading zeros or a leading `+` — not
only the canonical decimal rendering. -/
theorem C10_noncanonical_port_text_equal :
    ∀ (hp : HostPort) (t : String), parseU16 t = some hp.port →
      HostPort.eqStr hp (hp.host ++ ":" ++ t) = true := by
  intro hp t hpu
  have hnc : ':' ∉ t.data := parseU16_no_colon hpu
  have hq : rsplitOnce (hp.host ++ ":" ++ t) ':' = some (hp.host, t) := by
    unfold rsplitOnce
    rw [append_colon_data, List.reverse_append, List.reverse_cons,
      List.append_assoc, List.singleton_append,
      splitOnceList_append (fun hm => hnc (List.mem_reverse.mp hm))]
    simp only [Option.map_some', List.reverse_reverse]
  rw [eqStr_some hq, hpu]
  simp

theorem C10_witness :
    HostPort.eqStr ⟨"quake.se", 28501⟩ ("quake.se" ++ ":" ++ "+028501") = true :=
  C10_noncanonical_port_text_equal ⟨"quake.se", 28501⟩ "+028501" (by decide)

lemma label_char_iff (c : Char) :
    is_valid_label_char c = true ↔ c.isAlphanum = true ∨ c = '-' := by
  simp [is_valid_label_char]

lemma host_char_of_label_char {c : Char} (h : is_valid_label_char c = true) :
    is_valid_host_char c = true := by
  unfold is_valid_host_char
  rw [h]
  rfl

lemma is_valid_label_iff_spec (l : List Char) :
    is_valid_label l = true ↔
      (l ≠ [] ∧ l.length ≤ 63 ∧ l.head? ≠ some '-' ∧ l.getLast? ≠ some '-' ∧
       (∀ c ∈ l, c.isAlphanum = true ∨ c = '-') ∧
       ¬(∀ c ∈ l, c.isDigit = true)) := by
  rw [is_valid_label_iff]
  constructor
  · rintro ⟨h1, h2, h3, h4, h5, h6⟩
    exact ⟨h1, le_trans (length_le_utf8Len l) h2, h3, h4,
      fun c hc => (label_char_iff c).mp (h5 c hc), h6⟩
  · rintro ⟨h1, h2, h3, h4, h5, h6⟩
    have hchars : ∀ c ∈ l, is_valid_label_char c = true :=
      fun c hc => (label_char_iff c).mpr (h5 c hc)
    have hsizes : ∀ c ∈ l, c.utf8Size = 1 :=
      fun c hc => utf8Size_eq_one_of_host_char (host_char_of_label_char (hchars c hc))
    exact ⟨h1, by rw [utf8Len_eq_length l hsizes]; exact h2, h3, h4, hchars, h6⟩

lemma host_of_labels {s : String} (hlen : s.data.length ≤ 255)
    (hn : ¬((splitChar '.' s.data).length = 3 ∧
      ∀ c ∈ s.data, c.isDigit = true ∨ c = '.'))
    (hall : ∀ p ∈ splitChar '.' s.data, is_valid_label p = true) :
    is_valid_host s = true := by
  apply (is_valid_host_iff s).mpr
  have hpne : splitChar '.' s.data ≠ [] := by
    unfold splitChar
    simp
  have hjoin : joinParts '.' (splitChar '.' s.data) = s.data :=
    joinParts_splitChar '.' s.data
  have hcons : splitChar '.' s.data =
      (splitCharAux '.' s.data).1 :: (splitCharAux '.' s.data).2 := rfl
  obtain ⟨hp0ne, -, hp0h, -, hp0chars, -⟩ :=
    (is_valid_label_iff _).mp (hall _ (hcons ▸ List.mem_cons_self _ _))
  have hql : (splitChar '.' s.data).getLast? =
      some ((splitChar '.' s.data).getLast hpne) :=
    List.getLast?_eq_getLast _ hpne
  obtain ⟨hqne, -, -, hqlast, hqchars, -⟩ :=
    (is_valid_label_iff _).mp (hall _ (List.getLast_mem hpne))
  have hchars : ∀ c ∈ s.data, is_valid_host_char c = true := by
    intro c hc
    rw [← hjoin] at hc
    rcases mem_joinParts '.' hc with rfl | ⟨p, hp, hcp⟩
    · decide
    · obtain ⟨-, -, -, -, hpchars, -⟩ := (is_valid_label_iff _).mp (hall p hp)
      exact host_char_of_label_char (hpchars c hcp)
  have hne : s.data ≠ [] := by
    rw [← hjoin]
    exact joinParts_ne_nil hql hqne
  refine ⟨hne, ?_, ?_, ?_, hchars, fun h3 => absurd h3 hn, fun _ => hall⟩
  · rw [utf8Len_eq_length s.data
      (fun c hc => utf8Size_eq_one_of_host_char (hchars c hc))]
    exact hlen
  · intro c hc
    rw [← hjoin, hcons, head?_joinParts _ hp0ne] at hc
    have hcp : c ∈ (splitCharAux '.' s.data).1 := List.mem_of_mem_head? hc
    rcases (label_char_iff c).mp (hp0chars c hcp) with ha | rfl
    · exact ha
    · exact absurd hc hp0h
  · intro c hc
    rw [← hjoin, getLast?_joinParts hql hqne] at hc
    have hcq : c ∈ (splitChar '.' s.data).getLast hpne := mem_of_getLast?_eq hc
    rcases (label_char_iff c).mp (hqchars c hcq) with ha | rfl
    · exact ha
    · exact absurd hc hqlast

/-- A 259-byte host: 65 labels `"aaa"` joined by dots. -/
def longHost : String := ⟨joinParts '.' (List.replicate 65 ['a', 'a', 'a'])⟩

/-- C6 counterexample: a string of 65 `"aaa"` labels is not handled by the
3-part numeric branch and every dot-separated part satisfies the label rule,
yet `is_valid_host` rejects it (it is longer than 255 bytes), so the claimed
"accepts iff every part satisfies the label rule" fails as stated. -/
theorem C6_long_valid_labels_rejected :
    (splitChar '.' longHost.data).all is_valid_label = true ∧
    ((splitChar '.' longHost.data).length == 3 &&
      longHost.data.all (fun c => c.isDigit || c == '.')) = false ∧
    is_valid_host longHost = false := by
  refine ⟨by decide, by decide, by decide⟩

/-- C6 (amended): for every string of at most 255 characters not taken by the
3-part all-numeric branch, `is_valid_host` accepts iff every dot-separated
part satisfies the label rule, and a part satisfies the label rule iff it is
non-empty, at most 63 characters, does not start or end with `-`, every
character is ASCII alphanumeric or `-`, and it is not composed entirely of
digits. -/
theorem C6_label_branch_characterization :
    ∀ s : String, s.data.length ≤ 255 →
      ¬((splitChar '.' s.data).length = 3 ∧
        ∀ c ∈ s.data, c.isDigit = true ∨ c = '.') →
      ((is_valid_host s = true ↔
          ∀ p ∈ splitChar '.' s.data, is_valid_label p = true) ∧
       (∀ l : List Char, is_valid_label l = true ↔
          (l ≠ [] ∧ l.length ≤ 63 ∧ l.head? ≠ some '-' ∧ l.getLast? ≠ some '-' ∧
           (∀ c ∈ l, c.isAlphanum = true ∨ c = '-') ∧
           ¬(∀ c ∈ l, c.isDigit = true)))) := by
  intro s hlen hn
  refine ⟨⟨fun hv => ?_, host_of_labels hlen hn⟩, fun l => is_valid_label_iff_spec l⟩
  obtain ⟨-, -, -, -, -, -, hlab⟩ := (is_valid_host_iff s).mp hv
  exact hlab hn

theorem C6_witness :
    is_valid_host "quake.se" = true ∧ is_valid_host "a.0" = false := by
  have h1 := C6_label_branch_characterization "quake.se" (by decide) (by decide)
  have h2 := C6_label_branch_characterization "a.0" (by decide) (by decide)
  constructor
  · exact h1.1.mpr (by decide)
  · cases hv : is_valid_host "a.0" with
    | false => rfl
    | true =>
      exfalso
      have := h2.1.mp hv
      have h0 := this ['0'] (by decide)
      rw [h2.2 ['0']] at h0
      exact h0.2.2.2.2.2 (by decide)

end Hostport
